import Mathlib

/-!
Verification of the Frontend-Standardization template utilities.

The repository's executable code consists of small TypeScript utilities and
React hooks.  We give a shallow embedding:

* JavaScript strings are modelled as lists of UTF-16 code units (`JSStr`,
  lists of `Nat`).  `String.prototype.toLowerCase` is modelled code-unit-wise
  and `String.prototype.toUpperCase` as a code-unit-to-sequence map (full
  case mapping can expand, e.g. U+00DF to 'SS'); both models are exact on
  ASCII, and the only theorem quantifying over case-mapped strings is
  restricted to ASCII inputs accordingly.
* JavaScript numbers used as lengths/indices are modelled as `Int`
  (the code only ever uses them at integral values); `String.prototype.substring`
  clamps a negative end index to 0, which we model with `Int.toNat`.
* React hooks are modelled as explicit state machines: the effect body and
  its cleanup become pure functions on an explicit environment/state.
* Host APIs (`Intl.NumberFormat`, `window.matchMedia`) are parameters: the
  embedded functions receive the host behaviour as a function argument.
-/

/-- A JavaScript string as its sequence of UTF-16 code units. -/
abbrev JSStr := List Nat

/-- Code unit of the space character, the separator used by `titleCase`. -/
def spaceCU : Nat := 32

/-- Model of `toLowerCase` on one code unit (ASCII case mapping). -/
def toLowerChar (c : Nat) : Nat := if 65 ≤ c ∧ c ≤ 90 then c + 32 else c

/-- Model of `toUpperCase` on one code unit, as the code-unit sequence of
its Unicode full case mapping: ASCII letters map within ASCII, and U+00DF
('ß') expands to 'SS'.  The model is exact on ASCII and on U+00DF; the
remaining special mappings of the Unicode tables are outside the code
points used in this development and are modelled as the identity. -/
def toUpperCU (c : Nat) : List Nat :=
  if 97 ≤ c ∧ c ≤ 122 then [c - 32]
  else if c = 223 then [83, 83]
  else [c]

/-- Model of `String.prototype.toLowerCase`, applied code-unit-wise (exact
on ASCII; the special lowercase mappings of the Unicode tables concern code
points outside this development). -/
def toLowerCase (s : JSStr) : JSStr := s.map toLowerChar

/-- Model of `str.substring(0, e)`: a negative end index is clamped to 0,
an end index beyond the length is clamped to the length. -/
def substringFromZero (s : JSStr) (e : Int) : JSStr := s.take e.toNat

/-- Embedding of `truncate(str, length, suffix)` from the utils module:
`if (str.length <= length) return str; return str.substring(0, length - suffix.length) + suffix;` -/
def truncate (str : JSStr) (length : Int) (suffix : JSStr) : JSStr :=
  if (str.length : Int) ≤ length then str
  else substringFromZero str (length - (suffix.length : Int)) ++ suffix

/-- The default suffix `'...'` (three full stops, code unit 46). -/
def defaultSuffix : JSStr := [46, 46, 46]

/-- Embedding of `truncate` with the default suffix argument. -/
def truncateDefault (str : JSStr) (length : Int) : JSStr :=
  truncate str length defaultSuffix

/-- Embedding of `capitalize(str)` from the utils module:
`if (!str) return str; return str.charAt(0).toUpperCase() + str.slice(1);`
(the empty string is falsy and is returned unchanged; uppercasing the
one-code-unit string `charAt(0)` may expand under full case mapping). -/
def capitalize (str : JSStr) : JSStr :=
  match str with
  | [] => []
  | c :: rest => toUpperCU c ++ rest

/-- Model of `str.split(sep)` for a one-code-unit separator: splits at every
occurrence of the separator; adjacent separators yield empty pieces, and the
result is never the empty list (splitting `""` yields `[""]`). -/
def splitOnChar (sep : Nat) : JSStr → List JSStr
  | [] => [[]]
  | x :: xs =>
    if x = sep then [] :: splitOnChar sep xs
    else
      match splitOnChar sep xs with
      | w :: ws => (x :: w) :: ws
      | [] => [[x]]

/-- Model of `pieces.join(sep)` for a one-code-unit separator. -/
def joinWithChar (sep : Nat) : List JSStr → JSStr
  | [] => []
  | [w] => w
  | w :: v :: ws => w ++ sep :: joinWithChar sep (v :: ws)

/-- Embedding of `titleCase(str)` from the utils module:
`str.toLowerCase().split(' ').map(word => capitalize(word)).join(' ')`. -/
def titleCase (str : JSStr) : JSStr :=
  joinWithChar spaceCU ((splitOnChar spaceCU (toLowerCase str)).map capitalize)

/-! ### formatCurrency and formatNumber

Both functions delegate to the host API `Intl.NumberFormat`.  We parameterize
the embedding by the host behaviour: `fmt locale options amount` stands for
`new Intl.NumberFormat(locale, options).format(amount)`, where `options` is
`none` when the constructor is called without an options argument.  The
amount type is a parameter, since the claims hold for every amount. -/

/-- The options bag passed to `Intl.NumberFormat` by `formatCurrency`. -/
structure NumberFormatOptions where
  style : Option String
  currency : Option String
deriving DecidableEq

/-- Embedding of `formatCurrency(amount, currency, locale)`:
`new Intl.NumberFormat(locale, { style: 'currency', currency }).format(amount)`. -/
def formatCurrency (fmt : String → Option NumberFormatOptions → α → String)
    (amount : α) (currency : String) (locale : String) : String :=
  fmt locale (some ⟨some "currency", some currency⟩) amount

/-- Embedding of `formatCurrency` with its default arguments
`currency = 'USD'`, `locale = 'en-US'`. -/
def formatCurrencyDefaults (fmt : String → Option NumberFormatOptions → α → String)
    (amount : α) : String :=
  formatCurrency fmt amount "USD" "en-US"

/-- Modelled from the spec: a locale-aware currency formatter that is a thin
pass-through to the standard internationalization API, producing exactly
`Intl.NumberFormat(locale, { style: 'currency', currency }).format(amount)`
with no transformation before or after. -/
def formatCurrencySpecModel (fmt : String → Option NumberFormatOptions → α → String)
    (amount : α) (currency : String) (locale : String) : String :=
  fmt locale (some { style := some "currency", currency := some currency }) amount

/-- Embedding of `formatNumber(num, locale)`:
`new Intl.NumberFormat(locale).format(num)` (no options argument). -/
def formatNumber (fmt : String → Option NumberFormatOptions → α → String)
    (num : α) (locale : String) : String :=
  fmt locale none num

/-- Embedding of `formatNumber` with its default argument `locale = 'en-US'`. -/
def formatNumberDefaults (fmt : String → Option NumberFormatOptions → α → String)
    (num : α) : String :=
  formatNumber fmt num "en-US"

/-- Modelled from the spec: a locale-aware number formatter that is a thin
pass-through to `Intl.NumberFormat(locale).format(num)` with nothing added. -/
def formatNumberSpecModel (fmt : String → Option NumberFormatOptions → α → String)
    (num : α) (locale : String) : String :=
  fmt locale none num

/-! ### The User entity

The exported interface from the types module, field for field:
`id: string; name: string; email: string; image?: string;
role: 'user' | 'admin'; createdAt: Date; updatedAt: Date`.
`Date` values are modelled by their epoch milliseconds. -/

/-- The union type `'user' | 'admin'` of the `role` field. -/
inductive Role where
  | user
  | admin
deriving DecidableEq

/-- Embedding of the `User` interface.  The optional field `image?: string`
is modelled as `Option String`. -/
structure User where
  id : String
  name : String
  email : String
  image : Option String
  role : Role
  createdAt : Int
  updatedAt : Int
deriving DecidableEq

/-! ### useDebounce

`useDebounce(value, delay)` keeps a state `debouncedValue` (initialised to
`value`) and runs an effect with dependencies `[value, delay]` that arms one
`setTimeout` committing `value` after `delay` milliseconds; the effect's
cleanup clears that timeout.  We model the hook as a state machine driven by
three events: a re-render with a (possibly) new value and delay (React
re-runs the effect only when a dependency changed, and the cleanup of the
previous run clears the previous timer first), the pending timer firing
(which, by `setTimeout` semantics, happens exactly when the delay has
elapsed since the timer was armed without an intervening cleanup), and
unmount (whose cleanup clears the pending timer).  `pending` being an
`Option` records that at most one timer is ever armed. -/

/-- Events driving the `useDebounce` state machine. -/
inductive DebEvent (T : Type) where
  | update (value : T) (delay : Nat)
  | fire
  | unmount

/-- State of one mounted `useDebounce` hook: the current dependency values
`value` and `delay`, the `debouncedValue` state, and the pending timer's
payload (armed `setTimeout` callbacks commit exactly one captured value). -/
structure DebState (T : Type) where
  value : T
  delay : Nat
  debounced : T
  pending : Option T
deriving DecidableEq

/-- Mount: `useState(value)` initialises `debouncedValue` to `value`, and the
first effect run arms a timer for `value`. -/
def initDeb (v : T) (d : Nat) : DebState T := ⟨v, d, v, some v⟩

/-- One step of the `useDebounce` state machine.  On `update`, if neither
dependency changed the effect does not re-run; otherwise the previous run's
cleanup clears the pending timer and the new run arms a timer for the new
value.  On `fire`, the pending timer (if any) commits its value into
`debouncedValue` and is consumed.  On `unmount`, the cleanup clears the
pending timer. -/
def debStep [DecidableEq T] (s : DebState T) (e : DebEvent T) : DebState T :=
  match e with
  | .update v d =>
    if v = s.value ∧ d = s.delay then s
    else { s with value := v, delay := d, pending := some v }
  | .fire =>
    match s.pending with
    | some v => { s with debounced := v, pending := none }
    | none => s
  | .unmount => { s with pending := none }

/-- Run the `useDebounce` state machine over a sequence of events. -/
def debRun [DecidableEq T] (s : DebState T) (tr : List (DebEvent T)) : DebState T :=
  tr.foldl debStep s

/-- The latest input value after a sequence of events: the value carried by
the last `update`, or the initial value when no `update` occurred. -/
def latestValue (v : T) (tr : List (DebEvent T)) : T :=
  tr.foldl (fun acc e => match e with | .update w _ => w | _ => acc) v

/-! ### useMediaQuery

`useMediaQuery(query)` keeps a boolean state `matches`; its effect obtains
`media = window.matchMedia(query)`, aligns the state with `media.matches`,
registers one `'change'` listener on `media`, and returns a cleanup that
removes exactly that listener.  A `MediaQueryList` is modelled by its
`matches` flag and its list of registered `'change'` listeners (listeners
identified by a `Nat`); `addEventListener` appends a registration and
`removeEventListener` removes the registration of the given listener. -/

/-- Model of a `MediaQueryList`: its current `matches` flag and the
identities of its registered `'change'` listeners. -/
structure MediaQueryList where
  mqMatches : Bool
  listeners : List Nat
deriving DecidableEq

/-- Model of `media.addEventListener('change', listener)`. -/
def mqlAddEventListener (m : MediaQueryList) (l : Nat) : MediaQueryList :=
  ⟨m.mqMatches, m.listeners ++ [l]⟩

/-- Model of `media.removeEventListener('change', listener)`: removes the
registration of that listener. -/
def mqlRemoveEventListener (m : MediaQueryList) (l : Nat) : MediaQueryList :=
  ⟨m.mqMatches, m.listeners.erase l⟩

/-- Result of one run of the `useMediaQuery` effect: the media-query list
after registration, the `matches` state after the conditional `setMatches`,
and the identity of the listener the run registered. -/
structure MQEffectRun where
  mql : MediaQueryList
  matchesState : Bool
  registered : Nat
deriving DecidableEq

/-- Embedding of the `useMediaQuery` effect body in a browser context:
`const media = window.matchMedia(query); if (media.matches !== matches)
setMatches(media.matches); const listener = () => setMatches(media.matches);
media.addEventListener('change', listener);`.  `matchMedia` is the host's
`window.matchMedia`, and `freshListener` is the identity of the listener
closure created by this run (fresh, since the closure is newly allocated). -/
def useMediaQueryEffect (matchMedia : String → MediaQueryList) (query : String)
    (matchesState : Bool) (freshListener : Nat) : MQEffectRun :=
  let media := matchMedia query
  let st := if media.mqMatches ≠ matchesState then media.mqMatches else matchesState
  ⟨mqlAddEventListener media freshListener, st, freshListener⟩

/-- Embedding of the effect's cleanup:
`() => media.removeEventListener('change', listener)`. -/
def useMediaQueryCleanup (r : MQEffectRun) : MediaQueryList :=
  mqlRemoveEventListener r.mql r.registered

/-- Errors raised by JavaScript evaluation in the model. -/
inductive JsError where
  | referenceError
deriving DecidableEq

/-- Embedding of the `useMediaQuery` effect body in an arbitrary rendering
context: the first operation evaluates `window.matchMedia(query)`, so when
no `window` object exists (`window? = none`, as in server-side rendering)
that unguarded access throws a `ReferenceError`; the body contains no test
for the presence of the browser API and no fallback branch. -/
def useMediaQueryEffectChecked (window? : Option (String → MediaQueryList))
    (query : String) (matchesState : Bool) (freshListener : Nat) :
    Except JsError MQEffectRun :=
  match window? with
  | none => .error .referenceError
  | some matchMedia => .ok (useMediaQueryEffect matchMedia query matchesState freshListener)

/-! ## Theorems -/

/-- C6: for every amount, currency code (default `'USD'`), and locale
(default `'en-US'`), `formatCurrency` returns exactly the string produced by
`Intl.NumberFormat(locale, { style: 'currency', currency }).format(amount)`,
with no transformation added before or after the pass-through. -/
theorem formatCurrency_passthrough :
    ∀ (α : Type) (fmt : String → Option NumberFormatOptions → α → String)
      (amount : α) (currency locale : String),
      formatCurrency fmt amount currency locale =
        formatCurrencySpecModel fmt amount currency locale ∧
      formatCurrencyDefaults fmt amount =
        formatCurrencySpecModel fmt amount "USD" "en-US" := by
  intro α fmt amount currency locale
  exact ⟨rfl, rfl⟩

/-- C7: for every number and locale (default `'en-US'`), `formatNumber`
returns exactly the string produced by
`Intl.NumberFormat(locale).format(num)`, adding nothing of its own (the
thousand separators are whatever the host formatter emits for the locale). -/
theorem formatNumber_passthrough :
    ∀ (α : Type) (fmt : String → Option NumberFormatOptions → α → String)
      (num : α) (locale : String),
      formatNumber fmt num locale = formatNumberSpecModel fmt num locale ∧
      formatNumberDefaults fmt num = formatNumberSpecModel fmt num "en-US" := by
  intro α fmt num locale
  exact ⟨rfl, rfl⟩

/-- C4: in a rendering context without a `window` object, the effect body of
`useMediaQuery` reaches the unguarded `window.matchMedia` access and throws,
for every query, state, and listener identity; no fallback branch exists. -/
theorem useMediaQuery_unguarded_window :
    ∀ (query : String) (st : Bool) (l : Nat),
      useMediaQueryEffectChecked none query st l =
        Except.error JsError.referenceError := by
  intro query st l
  rfl

/-- C5 counterexample: the `User` interface carries a field outside the list
(id, name, email, role, createdAt, updatedAt): two concrete `User` values
agree on all six listed fields yet differ, because of the optional `image`
field present in the source interface. -/
theorem user_not_determined_by_claimed_fields :
    (User.mk "u1" "Ada" "ada@example.com" none Role.user 0 0 ≠
      User.mk "u1" "Ada" "ada@example.com" (some "avatar.png") Role.user 0 0) ∧
    (User.mk "u1" "Ada" "ada@example.com" none Role.user 0 0).id =
      (User.mk "u1" "Ada" "ada@example.com" (some "avatar.png") Role.user 0 0).id ∧
    (User.mk "u1" "Ada" "ada@example.com" none Role.user 0 0).name =
      (User.mk "u1" "Ada" "ada@example.com" (some "avatar.png") Role.user 0 0).name ∧
    (User.mk "u1" "Ada" "ada@example.com" none Role.user 0 0).email =
      (User.mk "u1" "Ada" "ada@example.com" (some "avatar.png") Role.user 0 0).email ∧
    (User.mk "u1" "Ada" "ada@example.com" none Role.user 0 0).role =
      (User.mk "u1" "Ada" "ada@example.com" (some "avatar.png") Role.user 0 0).role ∧
    (User.mk "u1" "Ada" "ada@example.com" none Role.user 0 0).createdAt =
      (User.mk "u1" "Ada" "ada@example.com" (some "avatar.png") Role.user 0 0).createdAt ∧
    (User.mk "u1" "Ada" "ada@example.com" none Role.user 0 0).updatedAt =
      (User.mk "u1" "Ada" "ada@example.com" (some "avatar.png") Role.user 0 0).updatedAt := by
  refine ⟨?_, rfl, rfl, rfl, rfl, rfl, rfl⟩
  intro h
  cases h

/-- C5 amended: the `User` entity consists of the required fields id, name,
email, role (`'user' | 'admin'`), createdAt and updatedAt, together with an
optional `image` field, and exactly these seven: two users agreeing on all
seven are equal, every combination of the seven is realizable, and every
user's role is `'user'` or `'admin'`. -/
theorem user_shape_amended :
    (∀ u v : User, u.id = v.id → u.name = v.name → u.email = v.email →
      u.image = v.image → u.role = v.role → u.createdAt = v.createdAt →
      u.updatedAt = v.updatedAt → u = v) ∧
    (∀ (i n e : String) (im : Option String) (r : Role) (c up : Int),
      ∃ u : User, u.id = i ∧ u.name = n ∧ u.email = e ∧ u.image = im ∧
        u.role = r ∧ u.createdAt = c ∧ u.updatedAt = up) ∧
    (∀ u : User, u.role = Role.user ∨ u.role = Role.admin) := by
  refine ⟨?_, ?_, ?_⟩
  · intro u v h1 h2 h3 h4 h5 h6 h7
    cases u
    cases v
    simp_all
  · intro i n e im r c up
    exact ⟨User.mk i n e im r c up, rfl, rfl, rfl, rfl, rfl, rfl, rfl⟩
  · intro u
    cases h : u.role
    · exact Or.inl rfl
    · exact Or.inr rfl

/-- Witness for the amended C5 theorem at concrete users. -/
theorem user_shape_amended_witness :
    User.mk "u1" "Ada" "ada@example.com" none Role.user 0 0 =
      User.mk "u1" "Ada" "ada@example.com" none Role.user 0 0 ∧
    (∃ u : User, u.id = "u2" ∧ u.name = "Grace" ∧ u.email = "g@example.com" ∧
      u.image = some "pic.png" ∧ u.role = Role.admin ∧ u.createdAt = 1 ∧
      u.updatedAt = 2) ∧
    ((User.mk "u1" "Ada" "ada@example.com" none Role.user 0 0).role = Role.user ∨
      (User.mk "u1" "Ada" "ada@example.com" none Role.user 0 0).role = Role.admin) :=
  ⟨user_shape_amended.1 _ _ rfl rfl rfl rfl rfl rfl rfl,
   user_shape_amended.2.1 "u2" "Grace" "g@example.com" (some "pic.png") Role.admin 1 2,
   user_shape_amended.2.2 _⟩

/-- C2 counterexample: at str = `'hello'`, length = 1, suffix = `'...'`
(the default), the result of `truncate` is longer than the requested maximum
length, refuting the claim that the truncated result never exceeds it. -/
theorem truncate_exceeds_maximum_cex :
    ¬ (((truncate [104, 101, 108, 108, 111] 1 defaultSuffix).length : Int) ≤ 1) := by
  decide

/-- C2 amended: `truncate(str, length, suffix)` returns `str` unchanged when
`str.length <= length`; when additionally `suffix.length <= length`, a longer
`str` is replaced by its first `length - suffix.length` characters followed
by the suffix, and only under that proviso does the result never exceed the
maximum length. -/
theorem truncate_correct_amended :
    ∀ (str : JSStr) (length : Int) (suffix : JSStr),
      ((str.length : Int) ≤ length → truncate str length suffix = str) ∧
      ((suffix.length : Int) ≤ length → length < (str.length : Int) →
        truncate str length suffix =
          str.take (length - (suffix.length : Int)).toNat ++ suffix ∧
        ((truncate str length suffix).length : Int) ≤ length) := by
  intro str length suffix
  constructor
  · intro h
    simp [truncate, h]
  · intro hsuf hlen
    have hnot : ¬ ((str.length : Int) ≤ length) := by omega
    constructor
    · simp [truncate, hnot, substringFromZero]
    · simp only [truncate, hnot, if_false, substringFromZero, List.length_append,
        List.length_take]
      omega

/-- Witness for the amended C2 theorem at concrete strings. -/
theorem truncate_correct_amended_witness :
    truncate [104, 101, 108] 5 defaultSuffix = [104, 101, 108] ∧
    truncate [104, 101, 108, 108, 111] 4 defaultSuffix =
      ([104, 101, 108, 108, 111] : JSStr).take (((4 : Int) - (3 : Nat)).toNat) ++
        defaultSuffix ∧
    ((truncate [104, 101, 108, 108, 111] 4 defaultSuffix).length : Int) ≤ 4 :=
  ⟨(truncate_correct_amended [104, 101, 108] 5 defaultSuffix).1 (by decide),
   ((truncate_correct_amended [104, 101, 108, 108, 111] 4 defaultSuffix).2
     (by decide) (by decide)).1,
   ((truncate_correct_amended [104, 101, 108, 108, 111] 4 defaultSuffix).2
     (by decide) (by decide)).2⟩

/-- C8: when `str.length > length`, the result of `truncate` has length
exactly `length` precisely under the precondition `suffix.length <= length`;
when `suffix.length > length` the substring end index is negative and clamps
to 0, so the result is the suffix alone and is strictly longer than the
requested maximum length. -/
theorem truncate_length_dichotomy :
    ∀ (str : JSStr) (length : Int) (suffix : JSStr), length < (str.length : Int) →
      (((suffix.length : Int) ≤ length →
          ((truncate str length suffix).length : Int) = length) ∧
        (length < (suffix.length : Int) →
          truncate str length suffix = suffix ∧
          length < ((truncate str length suffix).length : Int))) := by
  intro str length suffix hlen
  have hnot : ¬ ((str.length : Int) ≤ length) := by omega
  constructor
  · intro hsuf
    simp only [truncate, hnot, if_false, substringFromZero, List.length_append,
      List.length_take]
    omega
  · intro hsuf
    have hz : (length - (suffix.length : Int)).toNat = 0 := by omega
    constructor
    · simp [truncate, hnot, substringFromZero, hz]
    · simp only [truncate, hnot, if_false, substringFromZero, hz, List.take_zero,
        List.nil_append]
      omega

/-- Witness for the C8 theorem at concrete strings. -/
theorem truncate_length_dichotomy_witness :
    ((truncate [104, 101, 108, 108, 111] 4 defaultSuffix).length : Int) = 4 ∧
    truncate [104, 101, 108, 108, 111] 1 defaultSuffix = defaultSuffix ∧
    (1 : Int) < ((truncate [104, 101, 108, 108, 111] 1 defaultSuffix).length : Int) :=
  ⟨(truncate_length_dichotomy [104, 101, 108, 108, 111] 4 defaultSuffix
      (by decide)).1 (by decide),
   ((truncate_length_dichotomy [104, 101, 108, 108, 111] 1 defaultSuffix
      (by decide)).2 (by decide)).1,
   ((truncate_length_dichotomy [104, 101, 108, 108, 111] 1 defaultSuffix
      (by decide)).2 (by decide)).2⟩

/-- C3: one run of the `useMediaQuery` effect registers exactly one
`'change'` listener on the media-query list obtained from
`window.matchMedia(query)` and aligns the boolean state with its `matches`
flag, leaving the flag itself untouched; the returned cleanup removes
exactly that listener, restoring the media-query list to its state before
the effect ran (so no listener added by the hook survives teardown, and
nothing else about the list is changed). -/
theorem useMediaQuery_effect_cleanup :
    ∀ (matchMedia : String → MediaQueryList) (query : String) (st : Bool) (l : Nat),
      l ∉ (matchMedia query).listeners →
      (useMediaQueryEffect matchMedia query st l).registered = l ∧
      (useMediaQueryEffect matchMedia query st l).mql.listeners =
        (matchMedia query).listeners ++ [l] ∧
      (useMediaQueryEffect matchMedia query st l).mql.mqMatches =
        (matchMedia query).mqMatches ∧
      (useMediaQueryEffect matchMedia query st l).matchesState =
        (matchMedia query).mqMatches ∧
      useMediaQueryCleanup (useMediaQueryEffect matchMedia query st l) =
        matchMedia query := by
  intro matchMedia query st l hfresh
  refine ⟨rfl, rfl, rfl, ?_, ?_⟩
  · by_cases h : (matchMedia query).mqMatches = st
    · simp [useMediaQueryEffect, h]
    · simp [useMediaQueryEffect, h]
  · have herase : ((matchMedia query).listeners ++ [l]).erase l =
        (matchMedia query).listeners := by
      rw [List.erase_append_right _ hfresh]
      simp
    simp only [useMediaQueryCleanup, useMediaQueryEffect, mqlRemoveEventListener,
      mqlAddEventListener]
    rw [herase]

/-- Witness for the C3 theorem at a concrete environment, query, state and
listener identity. -/
theorem useMediaQuery_effect_cleanup_witness :
    (useMediaQueryEffect (fun _ => MediaQueryList.mk true [7])
        "(max-width: 768px)" false 3).registered = 3 ∧
    (useMediaQueryEffect (fun _ => MediaQueryList.mk true [7])
        "(max-width: 768px)" false 3).mql.listeners = [7] ++ [3] ∧
    (useMediaQueryEffect (fun _ => MediaQueryList.mk true [7])
        "(max-width: 768px)" false 3).mql.mqMatches = true ∧
    (useMediaQueryEffect (fun _ => MediaQueryList.mk true [7])
        "(max-width: 768px)" false 3).matchesState = true ∧
    useMediaQueryCleanup (useMediaQueryEffect (fun _ => MediaQueryList.mk true [7])
        "(max-width: 768px)" false 3) = MediaQueryList.mk true [7] :=
  useMediaQuery_effect_cleanup (fun _ => MediaQueryList.mk true [7])
    "(max-width: 768px)" false 3 (by decide)

/-- Helper: running one more event is one step after the run. -/
theorem debRun_append [DecidableEq T] (s : DebState T) (tr : List (DebEvent T))
    (e : DebEvent T) : debRun s (tr ++ [e]) = debStep (debRun s tr) e := by
  simp [debRun, List.foldl_append]

/-- Helper: the `value` field of the state tracks the latest input value. -/
theorem debRun_value [DecidableEq T] (s : DebState T) (tr : List (DebEvent T)) :
    (debRun s tr).value = latestValue s.value tr := by
  induction tr generalizing s with
  | nil => rfl
  | cons e tr ih =>
    have hstep : debRun s (e :: tr) = debRun (debStep s e) tr := by
      simp [debRun]
    rw [hstep, ih]
    cases e with
    | update v d =>
      by_cases hc : v = s.value ∧ d = s.delay
      · simp [debStep, hc, latestValue, List.foldl]
      · simp [debStep, hc, latestValue, List.foldl]
    | fire =>
      cases hp : s.pending <;> simp [debStep, hp, latestValue, List.foldl]
    | unmount =>
      simp [debStep, latestValue, List.foldl]

/-- Helper: whenever a pending timer exists it carries the current input
value (the cleanup in the effect cancels the old timer before a new one is
armed, so a superseded input is never left pending). -/
theorem debRun_pending_latest [DecidableEq T] (s : DebState T)
    (h : s.pending = none ∨ s.pending = some s.value) (tr : List (DebEvent T)) :
    (debRun s tr).pending = none ∨
      (debRun s tr).pending = some (debRun s tr).value := by
  induction tr generalizing s with
  | nil => exact h
  | cons e tr ih =>
    have hstep : debRun s (e :: tr) = debRun (debStep s e) tr := by
      simp [debRun]
    rw [hstep]
    apply ih
    cases e with
    | update v d =>
      by_cases hc : v = s.value ∧ d = s.delay
      · simpa [debStep, hc] using h
      · simp [debStep, hc]
    | fire =>
      cases hp : s.pending <;> simp [debStep, hp]
    | unmount =>
      simp [debStep]

/-- C1: for every initial value, delay, and sequence of events driving the
`useDebounce` state machine, (1) the single pending timer, when armed, holds
exactly the latest input value — an input superseded by a later one within
the delay is never left pending, because the effect's cleanup cancels the
timer on a value or delay change and on unmount; (2) the debounced value
changes only when the pending timer fires, and then it becomes the latest
input value; (3) the unmount cleanup leaves no timer pending. -/
theorem useDebounce_debounces (T : Type) [DecidableEq T] (v0 : T) (d0 : Nat)
    (tr : List (DebEvent T)) :
    ((debRun (initDeb v0 d0) tr).pending = none ∨
      (debRun (initDeb v0 d0) tr).pending = some (latestValue v0 tr)) ∧
    (∀ e, (debRun (initDeb v0 d0) (tr ++ [e])).debounced =
        (debRun (initDeb v0 d0) tr).debounced ∨
      ((debRun (initDeb v0 d0) (tr ++ [e])).debounced = latestValue v0 tr ∧
        e = DebEvent.fire ∧
        (debRun (initDeb v0 d0) tr).pending = some (latestValue v0 tr))) ∧
    (debRun (initDeb v0 d0) (tr ++ [DebEvent.unmount])).pending = none := by
  have hval : (debRun (initDeb v0 d0) tr).value = latestValue v0 tr :=
    debRun_value (initDeb v0 d0) tr
  have hpend := debRun_pending_latest (initDeb v0 d0) (Or.inr rfl) tr
  rw [hval] at hpend
  refine ⟨hpend, ?_, ?_⟩
  · intro e
    rw [debRun_append]
    cases e with
    | update v d =>
      by_cases hc : v = (debRun (initDeb v0 d0) tr).value ∧
          d = (debRun (initDeb v0 d0) tr).delay
      · exact Or.inl (by simp [debStep, hc])
      · exact Or.inl (by simp [debStep, hc])
    | fire =>
      rcases hpend with hn | hs
      · exact Or.inl (by simp [debStep, hn])
      · refine Or.inr ⟨?_, rfl, hs⟩
        simp [debStep, hs]
    | unmount =>
      exact Or.inl (by simp [debStep])
  · rw [debRun_append]
    simp [debStep]

/-- Helper: the lowercase map keeps ASCII code units in ASCII. -/
theorem toLowerChar_lt_128 (c : Nat) (h : c < 128) : toLowerChar c < 128 := by
  unfold toLowerChar
  split_ifs <;> omega

/-- Helper: on an ASCII code unit, lowercasing the uppercase expansion is
the one-unit lowercase of the original (false beyond ASCII: U+00DF expands
to 'SS', which lowercases to 'ss', not back to U+00DF). -/
theorem map_toLowerChar_toUpperCU (c : Nat) (h : c < 128) :
    (toUpperCU c).map toLowerChar = [toLowerChar c] := by
  by_cases h1 : 97 ≤ c ∧ c ≤ 122
  · have e1 : toUpperCU c = [c - 32] := by simp [toUpperCU, h1]
    have e2 : toLowerChar (c - 32) = c := by unfold toLowerChar; split_ifs <;> omega
    have e3 : toLowerChar c = c := by unfold toLowerChar; split_ifs <;> omega
    rw [e1, List.map_cons, List.map_nil, e2, e3]
  · have h223 : ¬ c = 223 := by omega
    have e1 : toUpperCU c = [c] := by simp [toUpperCU, h1, h223]
    rw [e1, List.map_cons, List.map_nil]

/-- Helper: the code-unit lowercase map is idempotent. -/
theorem toLowerChar_idem (c : Nat) : toLowerChar (toLowerChar c) = toLowerChar c := by
  unfold toLowerChar
  split_ifs <;> omega

/-- Helper: the lowercase map fixes the space separator and maps nothing
else to it. -/
theorem toLowerChar_eq_space_iff (c : Nat) :
    toLowerChar c = spaceCU ↔ c = spaceCU := by
  unfold toLowerChar spaceCU
  split_ifs <;> omega

/-- Helper: mapping a code-unit function over a join distributes to the
pieces and the separator. -/
theorem map_joinWithChar (f : Nat → Nat) (sep : Nat) (ws : List JSStr) :
    (joinWithChar sep ws).map f = joinWithChar (f sep) (ws.map (List.map f)) := by
  induction ws with
  | nil => rfl
  | cons w ws ih =>
    cases ws with
    | nil => rfl
    | cons v vs =>
      simp only [joinWithChar, List.map_append, List.map_cons]
      rw [ih]
      rfl

/-- Helper: splitting never yields the empty list of pieces. -/
theorem splitOnChar_ne_nil (sep : Nat) (s : JSStr) : splitOnChar sep s ≠ [] := by
  induction s with
  | nil => simp [splitOnChar]
  | cons x xs ih =>
    simp only [splitOnChar]
    split
    · simp
    · cases h : splitOnChar sep xs <;> simp

/-- Helper: no piece produced by splitting contains the separator. -/
theorem splitOnChar_not_mem (sep : Nat) (s : JSStr) :
    ∀ w ∈ splitOnChar sep s, sep ∉ w := by
  induction s with
  | nil =>
    intro w hw
    simp [splitOnChar] at hw
    subst hw
    simp
  | cons x xs ih =>
    intro w hw
    simp only [splitOnChar] at hw
    by_cases hx : x = sep
    · rw [if_pos hx] at hw
      rcases List.mem_cons.mp hw with rfl | hw'
      · simp
      · exact ih w hw'
    · rw [if_neg hx] at hw
      cases hsp : splitOnChar sep xs with
      | nil => exact absurd hsp (splitOnChar_ne_nil sep xs)
      | cons u us =>
        rw [hsp] at hw
        rcases List.mem_cons.mp hw with rfl | hw'
        · intro hmem
          rcases List.mem_cons.mp hmem with hsx | hmem'
          · exact hx hsx.symm
          · exact ih u (hsp ▸ List.mem_cons_self u us) hmem'
        · exact ih w (hsp ▸ List.mem_cons_of_mem u hw')

/-- Helper: every code unit of a piece produced by splitting occurs in the
split string. -/
theorem splitOnChar_mem_of_mem (sep : Nat) (s : JSStr) :
    ∀ w ∈ splitOnChar sep s, ∀ x ∈ w, x ∈ s := by
  induction s with
  | nil =>
    intro w hw
    simp [splitOnChar] at hw
    subst hw
    simp
  | cons a as ih =>
    intro w hw x hx
    simp only [splitOnChar] at hw
    by_cases ha : a = sep
    · rw [if_pos ha] at hw
      rcases List.mem_cons.mp hw with rfl | hw'
      · cases hx
      · exact List.mem_cons_of_mem a (ih w hw' x hx)
    · rw [if_neg ha] at hw
      cases hsp : splitOnChar sep as with
      | nil => exact absurd hsp (splitOnChar_ne_nil sep as)
      | cons u us =>
        rw [hsp] at hw
        rcases List.mem_cons.mp hw with rfl | hw'
        · rcases List.mem_cons.mp hx with hxa | hx'
          · exact hxa ▸ List.mem_cons_self a as
          · exact List.mem_cons_of_mem a
              (ih u (hsp ▸ List.mem_cons_self u us) x hx')
        · exact List.mem_cons_of_mem a
            (ih w (hsp ▸ List.mem_cons_of_mem u hw') x hx)

/-- Helper: splitting a string that contains no separator yields that single
piece. -/
theorem splitOnChar_of_not_mem (sep : Nat) (w : JSStr) (hw : sep ∉ w) :
    splitOnChar sep w = [w] := by
  induction w with
  | nil => rfl
  | cons x xs ih =>
    have hx : ¬ x = sep := fun h => hw (h ▸ List.mem_cons_self x xs)
    have hxs : sep ∉ xs := fun h => hw (List.mem_cons_of_mem x h)
    simp only [splitOnChar, if_neg hx, ih hxs]

/-- Helper: splitting a separator-free piece followed by the separator and a
remainder peels off exactly that piece. -/
theorem splitOnChar_append_sep (sep : Nat) (w rest : JSStr) (hw : sep ∉ w) :
    splitOnChar sep (w ++ sep :: rest) = w :: splitOnChar sep rest := by
  induction w with
  | nil => simp [splitOnChar]
  | cons x xs ih =>
    have hx : ¬ x = sep := fun h => hw (h ▸ List.mem_cons_self x xs)
    have hxs : sep ∉ xs := fun h => hw (List.mem_cons_of_mem x h)
    simp only [List.cons_append, splitOnChar, if_neg hx]
    rw [List.append_eq, ih hxs]

/-- Helper: splitting undoes joining when the pieces are nonempty as a list
and none of them contains the separator. -/
theorem splitOnChar_joinWithChar (sep : Nat) (ws : List JSStr) (hne : ws ≠ [])
    (h : ∀ w ∈ ws, sep ∉ w) : splitOnChar sep (joinWithChar sep ws) = ws := by
  induction ws with
  | nil => exact absurd rfl hne
  | cons w ws ih =>
    cases ws with
    | nil =>
      simpa [joinWithChar] using
        splitOnChar_of_not_mem sep w (h w (List.mem_cons_self w []))
    | cons v vs =>
      rw [joinWithChar,
        splitOnChar_append_sep sep w _ (h w (List.mem_cons_self w (v :: vs))),
        ih (by simp) (fun u hu => h u (List.mem_cons_of_mem w hu))]

/-- Helper: on an ASCII word, lowercasing the capitalized word agrees with
lowercasing the word. -/
theorem toLowerCase_capitalize_ascii (w : JSStr) (hw : ∀ c ∈ w, c < 128) :
    toLowerCase (capitalize w) = toLowerCase w := by
  cases w with
  | nil => rfl
  | cons c rest =>
    have hc : c < 128 := hw c (List.mem_cons_self c rest)
    show (toUpperCU c ++ rest).map toLowerChar = (c :: rest).map toLowerChar
    rw [List.map_append, map_toLowerChar_toUpperCU c hc]
    rfl

/-- Helper: a word made of already-lowercased code units is fixed by the
lowercase map. -/
theorem toLowerCase_fixed_of_mem_lower (s : JSStr) :
    ∀ w : JSStr, (∀ x ∈ w, x ∈ toLowerCase s) → toLowerCase w = w := by
  intro w
  induction w with
  | nil => intro _; rfl
  | cons c cs ih =>
    intro hsub
    have hc : c ∈ toLowerCase s := hsub c (List.mem_cons_self c cs)
    obtain ⟨y, _, hyc⟩ := List.mem_map.mp hc
    have hfix : toLowerChar c = c := by rw [← hyc, toLowerChar_idem]
    have htail : toLowerCase cs = cs :=
      ih (fun x hx => hsub x (List.mem_cons_of_mem c hx))
    simp only [toLowerCase, List.map_cons, hfix]
    simpa [toLowerCase] using htail

/-- C10 counterexample: on the one-character string 'ß' (U+00DF), whose
full uppercase mapping is 'SS', `titleCase` is not idempotent:
`titleCase('ß')` is 'SS' but `titleCase('SS')` is 'Ss'. -/
theorem titleCase_not_idempotent_cex :
    titleCase (titleCase [223]) ≠ titleCase [223] := by decide

/-- C10 amended: `titleCase` is idempotent on every string of ASCII code
units (where case mapping is one-to-one): lowercasing, splitting on single
spaces, capitalizing each word and rejoining yields a string that the same
pipeline maps to itself. -/
theorem titleCase_idempotent_ascii (s : JSStr) (hs : ∀ c ∈ s, c < 128) :
    titleCase (titleCase s) = titleCase s := by
  have hlowascii : ∀ x ∈ toLowerCase s, x < 128 := by
    intro x hx
    obtain ⟨y, hy, hyx⟩ := List.mem_map.mp hx
    exact hyx ▸ toLowerChar_lt_128 y (hs y hy)
  have hws_ne : splitOnChar spaceCU (toLowerCase s) ≠ [] :=
    splitOnChar_ne_nil spaceCU (toLowerCase s)
  have hws_nosep : ∀ w ∈ splitOnChar spaceCU (toLowerCase s), spaceCU ∉ w :=
    splitOnChar_not_mem spaceCU (toLowerCase s)
  have hlowsp : toLowerChar spaceCU = spaceCU := by decide
  have hmapfix : (splitOnChar spaceCU (toLowerCase s)).map toLowerCase =
      splitOnChar spaceCU (toLowerCase s) := by
    conv_rhs => rw [← List.map_id (splitOnChar spaceCU (toLowerCase s))]
    apply List.map_congr_left
    intro w hw
    exact toLowerCase_fixed_of_mem_lower s w
      (splitOnChar_mem_of_mem spaceCU (toLowerCase s) w hw)
  have hlow : toLowerCase (titleCase s) =
      joinWithChar spaceCU (splitOnChar spaceCU (toLowerCase s)) := by
    show (joinWithChar spaceCU
        ((splitOnChar spaceCU (toLowerCase s)).map capitalize)).map toLowerChar =
      joinWithChar spaceCU (splitOnChar spaceCU (toLowerCase s))
    rw [map_joinWithChar, hlowsp, List.map_map]
    congr 1
    calc (splitOnChar spaceCU (toLowerCase s)).map (List.map toLowerChar ∘ capitalize)
        = (splitOnChar spaceCU (toLowerCase s)).map toLowerCase := by
          apply List.map_congr_left
          intro w hw
          exact toLowerCase_capitalize_ascii w
            (fun c hc => hlowascii c
              (splitOnChar_mem_of_mem spaceCU (toLowerCase s) w hw c hc))
      _ = splitOnChar spaceCU (toLowerCase s) := hmapfix
  show joinWithChar spaceCU
      ((splitOnChar spaceCU (toLowerCase (titleCase s))).map capitalize) = titleCase s
  rw [hlow, splitOnChar_joinWithChar spaceCU _ hws_ne hws_nosep]
  rfl

/-- Witness for the amended C10 theorem at the concrete ASCII string
'hELlo wOrld'. -/
theorem titleCase_idempotent_ascii_witness :
    titleCase (titleCase [104, 69, 76, 108, 111, 32, 119, 79, 114, 108, 100]) =
      titleCase [104, 69, 76, 108, 111, 32, 119, 79, 114, 108, 100] :=
  titleCase_idempotent_ascii [104, 69, 76, 108, 111, 32, 119, 79, 114, 108, 100]
    (by decide)
